import Mathlib

/-!
# Verification of the `droprate` weighted-random-selection library

Shallow embedding of `src/lib.rs`. Weights (`f64` in the source) are
modelled as exact rationals `ℚ`; the `HashMap<T, f64>` is modelled as an
association list `List (T × ℚ)` with unique keys (the `HashMap`
guarantee), whose list order stands for the implementation-defined
iteration order. The injected random generator (`rng: R` stored in
`RandomTable`) is modelled as the stream `ℕ → ℚ` of its upcoming uniform
variates; the ambient process-wide generator used by `rand::random::<f64>()`
is modelled by passing the ambient variate as an explicit argument to the
operations that call it (`FairlyRandomTable::pure_random` and
`FairlyRandomTable::random`).
-/

set_option linter.unusedSectionVars false

namespace Droprate

variable {T : Type} [DecidableEq T]

/-- The model of `std::collections::HashMap<T, f64>`: an association list
with rational weights. -/
abbrev WMap (T : Type) := List (T × ℚ)

/-- `HashMap::get`: the value stored at key `k`, if any. -/
def getVal : WMap T → T → Option ℚ
  | [], _ => none
  | p :: rest, k => if p.1 = k then some p.2 else getVal rest k

/-- The list of keys of the map (`HashMap::keys`). -/
def keysOf (m : WMap T) : List T := m.map Prod.fst

/-- The sum of all stored weights. -/
def totalOf (m : WMap T) : ℚ := (m.map Prod.snd).sum

/-- `HashMap::insert`: overwrite the value when the key is present,
otherwise add a new entry. -/
def insertKV (m : WMap T) (k : T) (v : ℚ) : WMap T :=
  if k ∈ keysOf m then m.map (fun p => if p.1 = k then (p.1, v) else p)
  else m ++ [(k, v)]

/-- Set the value stored at key `k` to `0`
(`self.table.entry(k).and_modify(|e| *e = 0f64)` in the source). -/
def zeroAt (m : WMap T) (k : T) : WMap T :=
  m.map (fun p => if p.1 = k then (p.1, 0) else p)

/-- The entry-selection walk shared by the three draw operations in the
source: walk the entries in iteration order keeping a running remainder
`comp`; an entry is chosen as soon as its weight exceeds `comp`, otherwise
its weight is subtracted from `comp` (`if *pair.1 > comp { return Ok(..) }
comp -= pair.1;`). -/
def selectLoop : List (T × ℚ) → ℚ → Option (T × ℚ)
  | [], _ => none
  | p :: rest, comp => if comp < p.2 then some p else selectLoop rest (comp - p.2)

/-- The single error string of `droprate`. -/
def exhaustMsg : String := "Generated random outside of possible range"

/-- `RandomTable<T, R>`: entries, the running total, and the injected
generator `rng` modelled as the stream of its upcoming uniform variates. -/
structure RandomTable (T : Type) where
  table : WMap T
  total : ℚ
  rng : ℕ → ℚ

/-- `RandomTable::new`. -/
def RandomTable.new (g : ℕ → ℚ) : RandomTable T :=
  { table := [], total := 0, rng := g }

/-- `RandomTable::from_map`: keep the map and sum its weights. -/
def RandomTable.from_map (m : WMap T) (g : ℕ → ℚ) : RandomTable T :=
  { table := m, total := totalOf m, rng := g }

/-- `RandomTable::push`: `self.table.insert(ident, weight); self.total += weight;`
(note: the previous weight of `ident` is not subtracted). -/
def RandomTable.push (t : RandomTable T) (ident : T) (weight : ℚ) : RandomTable T :=
  { t with table := insertKV t.table ident weight, total := t.total + weight }

/-- `RandomTable::count`. -/
def RandomTable.count (t : RandomTable T) : ℕ := t.table.length

/-- `RandomTable::keys`. -/
def RandomTable.keys (t : RandomTable T) : List T := keysOf t.table

/-- `RandomTable::random`: draw `u` from the injected generator, scale by
the stored total, run the selection walk; the table and total are left
unchanged and only the generator advances. -/
def RandomTable.random (t : RandomTable T) : Except String T × RandomTable T :=
  (match selectLoop t.table (t.rng 0 * t.total) with
   | some p => Except.ok p.1
   | none => Except.error exhaustMsg,
   { t with rng := fun n => t.rng (n + 1) })

/-- `FairlyRandomTable<T, R>`: the `base` table of original weights (which
also holds the injected generator), the working map `table`, and the
working total. -/
structure FairlyRandomTable (T : Type) where
  base : RandomTable T
  table : WMap T
  total : ℚ

/-- `FairlyRandomTable::new`. -/
def FairlyRandomTable.new (g : ℕ → ℚ) : FairlyRandomTable T :=
  { base := RandomTable.new g, table := [], total := 0 }

/-- `FairlyRandomTable::from_map`. -/
def FairlyRandomTable.from_map (m : WMap T) (g : ℕ → ℚ) : FairlyRandomTable T :=
  { base := RandomTable.from_map m g, table := m, total := totalOf m }

/-- `FairlyRandomTable::push`: push into `base`, insert into the working
map, and add the weight to the working total. -/
def FairlyRandomTable.push (t : FairlyRandomTable T) (ident : T) (weight : ℚ) :
    FairlyRandomTable T :=
  { base := t.base.push ident weight,
    table := insertKV t.table ident weight,
    total := t.total + weight }

/-- `FairlyRandomTable::count`. -/
def FairlyRandomTable.count (t : FairlyRandomTable T) : ℕ := t.table.length

/-- `FairlyRandomTable::keys`. -/
def FairlyRandomTable.keys (t : FairlyRandomTable T) : List T := keysOf t.table

/-- `FairlyRandomTable::pure_random`: scale the AMBIENT variate `u`
(`rand::random::<f64>()`) by the working total `self.total` and walk the
base table. The receiver is `&self`: the method cannot write the table. -/
def FairlyRandomTable.pure_random (t : FairlyRandomTable T) (u : ℚ) : Except String T :=
  match selectLoop t.base.table (u * t.total) with
  | some p => Except.ok p.1
  | none => Except.error exhaustMsg

/-- Method-call form of `pure_random`: since the receiver is `&self`, the
state component of the call is the unchanged table. -/
def FairlyRandomTable.pure_randomM (t : FairlyRandomTable T) (u : ℚ) :
    Except String T × FairlyRandomTable T :=
  (t.pure_random u, t)

/-- The body of the loop of `FairlyRandomTable::redistribute_weights`,
applied to every working entry: an entry whose key has an original weight
`original` in `base` gains `amount * (original / bt)`; a key absent from
`base` is skipped (`None => continue`). -/
def redistList (base : WMap T) (bt amount : ℚ) (l : WMap T) : WMap T :=
  l.map (fun p =>
    match getVal base p.1 with
    | some original => (p.1, p.2 + amount * (original / bt))
    | none => p)

/-- `FairlyRandomTable::redistribute_weights`. -/
def FairlyRandomTable.redistribute_weights (t : FairlyRandomTable T) (amount : ℚ) :
    FairlyRandomTable T :=
  { t with table := redistList t.base.table t.base.total amount t.table }

/-- `FairlyRandomTable::random`: scale the AMBIENT variate `u`
(`rand::random::<f64>()`, not the injected `base.rng`) by the working
total, walk the working entries; on a match, zero the selected entry and
redistribute its former weight; on no match return the error with the
state untouched. -/
def FairlyRandomTable.random (t : FairlyRandomTable T) (u : ℚ) :
    Except String T × FairlyRandomTable T :=
  match selectLoop t.table (u * t.total) with
  | some p =>
      (Except.ok p.1,
       FairlyRandomTable.redistribute_weights { t with table := zeroAt t.table p.1 } p.2)
  | none => (Except.error exhaustMsg, t)

/-- Replace the injected generator of a `FairlyRandomTable` (it is stored
inside `base`), leaving every other component unchanged. -/
def FairlyRandomTable.withRng (t : FairlyRandomTable T) (g : ℕ → ℚ) :
    FairlyRandomTable T :=
  { t with base := { t.base with rng := g } }

/-- States of a `FairlyRandomTable` reachable by construction (`new`, or
`from_map` from a `HashMap`, whose keys are unique) followed by `push`
calls only. -/
inductive PushReachF : FairlyRandomTable T → Prop where
  | new : ∀ g : ℕ → ℚ, PushReachF (FairlyRandomTable.new g)
  | from_map : ∀ (m : WMap T) (g : ℕ → ℚ), (keysOf m).Nodup →
      PushReachF (FairlyRandomTable.from_map m g)
  | push : ∀ (t : FairlyRandomTable T) (k : T) (w : ℚ), PushReachF t →
      PushReachF (t.push k w)

/-- States of a `FairlyRandomTable` reachable by construction followed by
any sequence of `push`, adaptive `random` and `pure_random` calls. -/
inductive ReachF : FairlyRandomTable T → Prop where
  | new : ∀ g : ℕ → ℚ, ReachF (FairlyRandomTable.new g)
  | from_map : ∀ (m : WMap T) (g : ℕ → ℚ), (keysOf m).Nodup →
      ReachF (FairlyRandomTable.from_map m g)
  | push : ∀ (t : FairlyRandomTable T) (k : T) (w : ℚ), ReachF t →
      ReachF (t.push k w)
  | random : ∀ (t : FairlyRandomTable T) (u : ℚ), ReachF t →
      ReachF (t.random u).2
  | pure_random : ∀ (t : FairlyRandomTable T) (u : ℚ), ReachF t →
      ReachF (t.pure_randomM u).2

/-! ## Basic lemmas about the map model -/

theorem totalOf_nil : totalOf ([] : WMap T) = 0 := rfl

theorem totalOf_cons (p : T × ℚ) (l : WMap T) : totalOf (p :: l) = p.2 + totalOf l := by
  simp [totalOf]

theorem totalOf_append (l₁ l₂ : WMap T) :
    totalOf (l₁ ++ l₂) = totalOf l₁ + totalOf l₂ := by
  simp [totalOf]

theorem keysOf_append (l₁ l₂ : WMap T) : keysOf (l₁ ++ l₂) = keysOf l₁ ++ keysOf l₂ := by
  simp [keysOf]

theorem keysOf_map_fst {f : T × ℚ → T × ℚ} (hf : ∀ p, (f p).1 = p.1) (l : WMap T) :
    keysOf (l.map f) = keysOf l := by
  simp only [keysOf, List.map_map]
  exact List.map_congr_left fun p _ => hf p

theorem keysOf_zeroAt (l : WMap T) (k : T) : keysOf (zeroAt l k) = keysOf l := by
  refine keysOf_map_fst (fun p => ?_) l
  by_cases h : p.1 = k <;> simp [h]

theorem keysOf_redistList (base : WMap T) (bt a : ℚ) (l : WMap T) :
    keysOf (redistList base bt a l) = keysOf l := by
  refine keysOf_map_fst (fun p => ?_) l
  cases getVal base p.1 <;> simp

theorem keysOf_insertKV (m : WMap T) (k : T) (v : ℚ) :
    keysOf (insertKV m k v) = if k ∈ keysOf m then keysOf m else keysOf m ++ [k] := by
  by_cases h : k ∈ keysOf m
  · rw [if_pos h]
    unfold insertKV
    rw [if_pos h]
    refine keysOf_map_fst (fun p => ?_) m
    by_cases hp : p.1 = k <;> simp [hp]
  · rw [if_neg h]
    unfold insertKV
    rw [if_neg h, keysOf_append]
    rfl

theorem length_insertKV (m : WMap T) (k : T) (v : ℚ) :
    (insertKV m k v).length = if k ∈ keysOf m then m.length else m.length + 1 := by
  by_cases h : k ∈ keysOf m <;> simp [insertKV, h]

theorem getVal_eq_none (m : WMap T) (k : T) (h : k ∉ keysOf m) : getVal m k = none := by
  induction m with
  | nil => rfl
  | cons p rest ih =>
      simp only [keysOf, List.map_cons, List.mem_cons, not_or] at h
      have hne : p.1 ≠ k := fun he => h.1 he.symm
      simp only [getVal, if_neg hne]
      exact ih h.2

theorem getVal_append_right (m l : WMap T) (k : T) (h : k ∉ keysOf m) :
    getVal (m ++ l) k = getVal l k := by
  induction m with
  | nil => rfl
  | cons p rest ih =>
      simp only [keysOf, List.map_cons, List.mem_cons, not_or] at h
      have hne : p.1 ≠ k := fun he => h.1 he.symm
      simp only [List.cons_append, getVal, if_neg hne]
      exact ih h.2

theorem getVal_insertKV_self (m : WMap T) (k : T) (v : ℚ) :
    getVal (insertKV m k v) k = some v := by
  by_cases h : k ∈ keysOf m
  · unfold insertKV
    rw [if_pos h]
    induction m with
    | nil => simp [keysOf] at h
    | cons p rest ih =>
        by_cases hp : p.1 = k
        · simp [getVal, hp]
        · simp only [keysOf, List.map_cons, List.mem_cons] at h
          rcases h with h | h
          · exact absurd h.symm hp
          · simp only [List.map_cons, if_neg hp, getVal, if_neg hp]
            exact ih h
  · unfold insertKV
    rw [if_neg h, getVal_append_right _ _ _ h]
    simp [getVal]

theorem getVal_of_mem_nodup (l : WMap T) (p : T × ℚ) (hd : (keysOf l).Nodup)
    (hm : p ∈ l) : getVal l p.1 = some p.2 := by
  induction l with
  | nil => cases hm
  | cons q rest ih =>
      simp only [keysOf, List.map_cons, List.nodup_cons] at hd
      rcases List.mem_cons.mp hm with h | h
      · subst h
        simp [getVal]
      · have hne : q.1 ≠ p.1 := by
          intro he
          exact hd.1 (he ▸ List.mem_map_of_mem Prod.fst h)
        simp only [getVal, if_neg hne]
        exact ih hd.2 h

theorem getVal_zeroAt_self (l : WMap T) (k : T) :
    getVal (zeroAt l k) k = (getVal l k).map (fun _ => (0 : ℚ)) := by
  induction l with
  | nil => rfl
  | cons p rest ih =>
      by_cases hp : p.1 = k
      · simp [zeroAt, getVal, hp]
      · simpa [zeroAt, getVal, hp] using ih

theorem getVal_redistList (base : WMap T) (bt a : ℚ) (l : WMap T) (k : T) :
    getVal (redistList base bt a l) k =
      (getVal l k).map (fun v =>
        match getVal base k with
        | some o => v + a * (o / bt)
        | none => v) := by
  induction l with
  | nil => rfl
  | cons p rest ih =>
      by_cases hp : p.1 = k
      · subst hp
        cases hb : getVal base p.1 <;> simp [redistList, getVal, hb]
      · cases hb : getVal base p.1 <;>
          simpa [redistList, getVal, hb, hp] using ih

theorem nodup_keysOf_insertKV (m : WMap T) (k : T) (v : ℚ) (h : (keysOf m).Nodup) :
    (keysOf (insertKV m k v)).Nodup := by
  rw [keysOf_insertKV]
  by_cases hm : k ∈ keysOf m
  · rwa [if_pos hm]
  · rw [if_neg hm, List.nodup_append]
    refine ⟨h, List.nodup_singleton k, ?_⟩
    intro a ha hb
    rw [List.mem_singleton] at hb
    exact hm (hb ▸ ha)

/-! ## Lemmas about the selection walk -/

theorem selectLoop_mem {l : List (T × ℚ)} {comp : ℚ} {p : T × ℚ}
    (h : selectLoop l comp = some p) : p ∈ l := by
  induction l generalizing comp with
  | nil => cases h
  | cons q rest ih =>
      rw [selectLoop] at h
      by_cases hc : comp < q.2
      · rw [if_pos hc] at h
        exact List.mem_cons.mpr (Or.inl (Option.some.inj h).symm)
      · rw [if_neg hc] at h
        exact List.mem_cons.mpr (Or.inr (ih h))

theorem selectLoop_pos {l : List (T × ℚ)} {comp : ℚ} {p : T × ℚ}
    (hc : 0 ≤ comp) (h : selectLoop l comp = some p) : 0 < p.2 := by
  induction l generalizing comp with
  | nil => cases h
  | cons q rest ih =>
      rw [selectLoop] at h
      by_cases hlt : comp < q.2
      · rw [if_pos hlt] at h
        cases Option.some.inj h
        exact lt_of_le_of_lt hc hlt
      · rw [if_neg hlt] at h
        exact ih (by linarith [not_lt.mp hlt]) h

theorem selectLoop_pos_or_lt {l : List (T × ℚ)} {comp : ℚ} {p : T × ℚ}
    (h : selectLoop l comp = some p) : 0 < p.2 ∨ comp < p.2 := by
  cases l with
  | nil => cases h
  | cons q rest =>
      rw [selectLoop] at h
      by_cases hlt : comp < q.2
      · rw [if_pos hlt] at h
        cases Option.some.inj h
        exact Or.inr hlt
      · rw [if_neg hlt] at h
        exact Or.inl (selectLoop_pos (by linarith [not_lt.mp hlt]) h)

theorem selectLoop_none_le {l : List (T × ℚ)} {comp : ℚ}
    (hl : l ≠ []) (h : selectLoop l comp = none) : totalOf l ≤ comp := by
  induction l generalizing comp with
  | nil => exact absurd rfl hl
  | cons q rest ih =>
      rw [selectLoop] at h
      by_cases hlt : comp < q.2
      · rw [if_pos hlt] at h
        cases h
      · rw [if_neg hlt] at h
        rw [totalOf_cons]
        rcases eq_or_ne rest [] with hr | hr
        · subst hr
          simpa [totalOf] using not_lt.mp hlt
        · linarith [ih hr h]

/-! ## Weight-sum lemmas for zeroing and redistribution -/

theorem zeroAt_cons (p : T × ℚ) (l : WMap T) (k : T) :
    zeroAt (p :: l) k = (if p.1 = k then (p.1, 0) else p) :: zeroAt l k := rfl

theorem zeroAt_of_not_mem (l : WMap T) (k : T) (h : k ∉ keysOf l) : zeroAt l k = l := by
  induction l with
  | nil => rfl
  | cons p rest ih =>
      simp only [keysOf, List.map_cons, List.mem_cons, not_or] at h
      have hne : p.1 ≠ k := fun he => h.1 he.symm
      rw [zeroAt_cons, if_neg hne, ih h.2]

theorem totalOf_zeroAt (l : WMap T) (k : T) (v : ℚ) (hd : (keysOf l).Nodup)
    (h : getVal l k = some v) : totalOf (zeroAt l k) = totalOf l - v := by
  induction l with
  | nil => cases h
  | cons p rest ih =>
      simp only [keysOf, List.map_cons, List.nodup_cons] at hd
      rw [getVal] at h
      by_cases hp : p.1 = k
      · rw [if_pos hp] at h
        cases Option.some.inj h
        have hk : k ∉ keysOf rest := hp ▸ hd.1
        rw [zeroAt_cons, if_pos hp, zeroAt_of_not_mem rest k hk, totalOf_cons, totalOf_cons]
        show (0 : ℚ) + totalOf rest = p.2 + totalOf rest - p.2
        ring
      · rw [if_neg hp] at h
        rw [zeroAt_cons, if_neg hp, totalOf_cons, totalOf_cons, ih hd.2 h]
        ring

theorem totalOf_redistList (base : WMap T) (bt a : ℚ) (l : WMap T) :
    totalOf (redistList base bt a l) =
      totalOf l + a * (((l.map (fun p => ((getVal base p.1).getD 0))).sum) / bt) := by
  induction l with
  | nil => simp [redistList, totalOf]
  | cons p rest ih =>
      rw [redistList, List.map_cons]
      cases hb : getVal base p.1 with
      | none =>
          rw [totalOf_cons, ← redistList, ih, List.map_cons, List.sum_cons, hb]
          rw [totalOf_cons]
          simp only [Option.getD_none]
          ring
      | some o =>
          rw [totalOf_cons, ← redistList, ih, List.map_cons, List.sum_cons, hb]
          rw [totalOf_cons]
          simp only [Option.getD_some]
          ring

theorem sum_getD_keysOf (m : WMap T) (hd : (keysOf m).Nodup) :
    ((keysOf m).map (fun k => (getVal m k).getD 0)).sum = totalOf m := by
  induction m with
  | nil => rfl
  | cons p rest ih =>
      simp only [keysOf, List.map_cons, List.nodup_cons] at hd
      rw [keysOf, List.map_cons, List.map_cons, List.sum_cons]
      have h1 : getVal (p :: rest) p.1 = some p.2 := by
        simp [getVal]
      have h2 : List.map (fun k => (getVal (p :: rest) k).getD 0) (List.map Prod.fst rest)
          = List.map (fun k => (getVal rest k).getD 0) (List.map Prod.fst rest) := by
        refine List.map_congr_left fun k hk => ?_
        have hne : p.1 ≠ k := fun he => hd.1 (he ▸ hk)
        rw [getVal, if_neg hne]
      rw [h1, h2, totalOf_cons]
      have := ih hd.2
      rw [keysOf] at this
      rw [this]
      rfl

theorem sum_getD_of_keysOf_eq (l m : WMap T) (hk : keysOf l = keysOf m)
    (hd : (keysOf m).Nodup) :
    (l.map (fun p => ((getVal m p.1).getD 0))).sum = totalOf m := by
  have h1 : l.map (fun p => ((getVal m p.1).getD 0))
      = (keysOf l).map (fun k => (getVal m k).getD 0) := by
    rw [keysOf, List.map_map]
    rfl
  rw [h1, hk]
  exact sum_getD_keysOf m hd

/-! ## Invariants of reachable `FairlyRandomTable` states -/

theorem pushReachF_eq {t : FairlyRandomTable T} (h : PushReachF t) :
    t.table = t.base.table ∧ t.total = t.base.total := by
  induction h with
  | new g => exact ⟨rfl, rfl⟩
  | from_map m g hm => exact ⟨rfl, rfl⟩
  | push t k w ht ih =>
      refine ⟨?_, ?_⟩
      · show insertKV t.table k w = insertKV t.base.table k w
        rw [ih.1]
      · show t.total + w = t.base.total + w
        rw [ih.2]

theorem pushReachF_nodup {t : FairlyRandomTable T} (h : PushReachF t) :
    (keysOf t.table).Nodup := by
  induction h with
  | new g => exact List.nodup_nil
  | from_map m g hm => exact hm
  | push t k w ht ih => exact nodup_keysOf_insertKV t.table k w ih

theorem reachF_keys_eq {t : FairlyRandomTable T} (h : ReachF t) :
    keysOf t.table = keysOf t.base.table := by
  induction h with
  | new g => rfl
  | from_map m g hm => rfl
  | push t k w ht ih =>
      show keysOf (insertKV t.table k w) = keysOf (insertKV t.base.table k w)
      rw [keysOf_insertKV, keysOf_insertKV, ih]
  | random t u ht ih =>
      cases hsel : selectLoop t.table (u * t.total) with
      | none => simpa [FairlyRandomTable.random, hsel] using ih
      | some p =>
          simp only [FairlyRandomTable.random, hsel,
            FairlyRandomTable.redistribute_weights]
          rw [keysOf_redistList, keysOf_zeroAt]
          exact ih
  | pure_random t u ht ih => exact ih

theorem reachF_total_eq {t : FairlyRandomTable T} (h : ReachF t) :
    t.total = t.base.total := by
  induction h with
  | new g => rfl
  | from_map m g hm => rfl
  | push t k w ht ih =>
      show t.total + w = t.base.total + w
      rw [ih]
  | random t u ht ih =>
      cases hsel : selectLoop t.table (u * t.total) with
      | none => simpa [FairlyRandomTable.random, hsel] using ih
      | some p =>
          simpa [FairlyRandomTable.random, hsel,
            FairlyRandomTable.redistribute_weights] using ih
  | pure_random t u ht ih => exact ih

theorem reachF_nodup {t : FairlyRandomTable T} (h : ReachF t) :
    (keysOf t.table).Nodup := by
  induction h with
  | new g => exact List.nodup_nil
  | from_map m g hm => exact hm
  | push t k w ht ih => exact nodup_keysOf_insertKV t.table k w ih
  | random t u ht ih =>
      cases hsel : selectLoop t.table (u * t.total) with
      | none => simpa [FairlyRandomTable.random, hsel] using ih
      | some p =>
          simp only [FairlyRandomTable.random, hsel,
            FairlyRandomTable.redistribute_weights]
          rw [keysOf_redistList, keysOf_zeroAt]
          exact ih
  | pure_random t u ht ih => exact ih

theorem mem_keysOf_of_getVal {m : WMap T} {k : T} {v : ℚ} (h : getVal m k = some v) :
    k ∈ keysOf m := by
  by_contra hk
  rw [getVal_eq_none m k hk] at h
  cases h

theorem foldl_push_spec (m : WMap T) : ∀ t : RandomTable T,
    (keysOf m).Nodup → (∀ k ∈ keysOf m, k ∉ keysOf t.table) →
    (m.foldl (fun s p => s.push p.1 p.2) t).table = t.table ++ m ∧
    (m.foldl (fun s p => s.push p.1 p.2) t).total = t.total + totalOf m ∧
    (m.foldl (fun s p => s.push p.1 p.2) t).rng = t.rng := by
  induction m with
  | nil => intro t _ _; simp [totalOf]
  | cons p rest ih =>
      intro t hd h
      have hks : keysOf (p :: rest) = p.1 :: keysOf rest := rfl
      rw [hks, List.nodup_cons] at hd
      have hp : p.1 ∉ keysOf t.table := h p.1 (by rw [hks]; exact List.mem_cons_self _ _)
      have htab : (t.push p.1 p.2).table = t.table ++ [p] := by
        show insertKV t.table p.1 p.2 = t.table ++ [p]
        rw [insertKV, if_neg hp]
      have hfresh : ∀ k ∈ keysOf rest, k ∉ keysOf (t.push p.1 p.2).table := by
        intro k hk
        rw [htab, keysOf_append]
        intro hmem
        rcases List.mem_append.mp hmem with hm | hm
        · exact h k (by rw [hks]; exact List.mem_cons_of_mem _ hk) hm
        · have : k = p.1 := by simpa [keysOf] using hm
          exact hd.1 (this ▸ hk)
      obtain ⟨h1, h2, h3⟩ := ih (t.push p.1 p.2) hd.2 hfresh
      rw [List.foldl_cons]
      refine ⟨?_, ?_, ?_⟩
      · rw [h1, htab, List.append_assoc]
        rfl
      · rw [h2]
        show _ + _ + _ = _ + totalOf (p :: rest)
        rw [totalOf_cons]
        ring
      · rw [h3]
        rfl

theorem foldl_pushF_spec (m : WMap T) : ∀ f : FairlyRandomTable T,
    (keysOf m).Nodup →
    (∀ k ∈ keysOf m, k ∉ keysOf f.table) →
    (∀ k ∈ keysOf m, k ∉ keysOf f.base.table) →
    (m.foldl (fun s p => s.push p.1 p.2) f).table = f.table ++ m ∧
    (m.foldl (fun s p => s.push p.1 p.2) f).total = f.total + totalOf m ∧
    (m.foldl (fun s p => s.push p.1 p.2) f).base.table = f.base.table ++ m ∧
    (m.foldl (fun s p => s.push p.1 p.2) f).base.total = f.base.total + totalOf m := by
  induction m with
  | nil => intro f _ _ _; simp [totalOf]
  | cons p rest ih =>
      intro f hd h hb
      have hks : keysOf (p :: rest) = p.1 :: keysOf rest := rfl
      rw [hks, List.nodup_cons] at hd
      have hp : p.1 ∉ keysOf f.table := h p.1 (by rw [hks]; exact List.mem_cons_self _ _)
      have hpb : p.1 ∉ keysOf f.base.table := hb p.1 (by rw [hks]; exact List.mem_cons_self _ _)
      have htab : (f.push p.1 p.2).table = f.table ++ [p] := by
        show insertKV f.table p.1 p.2 = f.table ++ [p]
        rw [insertKV, if_neg hp]
      have htabb : (f.push p.1 p.2).base.table = f.base.table ++ [p] := by
        show insertKV f.base.table p.1 p.2 = f.base.table ++ [p]
        rw [insertKV, if_neg hpb]
      have hfresh : ∀ k ∈ keysOf rest, k ∉ keysOf (f.push p.1 p.2).table := by
        intro k hk
        rw [htab, keysOf_append]
        intro hmem
        rcases List.mem_append.mp hmem with hm | hm
        · exact h k (by rw [hks]; exact List.mem_cons_of_mem _ hk) hm
        · have : k = p.1 := by simpa [keysOf] using hm
          exact hd.1 (this ▸ hk)
      have hfreshb : ∀ k ∈ keysOf rest, k ∉ keysOf (f.push p.1 p.2).base.table := by
        intro k hk
        rw [htabb, keysOf_append]
        intro hmem
        rcases List.mem_append.mp hmem with hm | hm
        · exact hb k (by rw [hks]; exact List.mem_cons_of_mem _ hk) hm
        · have : k = p.1 := by simpa [keysOf] using hm
          exact hd.1 (this ▸ hk)
      obtain ⟨h1, h2, h3, h4⟩ := ih (f.push p.1 p.2) hd.2 hfresh hfreshb
      rw [List.foldl_cons]
      refine ⟨?_, ?_, ?_, ?_⟩
      · rw [h1, htab, List.append_assoc]
        rfl
      · rw [h2]
        show _ + _ + _ = _ + totalOf (p :: rest)
        rw [totalOf_cons]
        ring
      · rw [h3, htabb, List.append_assoc]
        rfl
      · rw [h4]
        show _ + _ + _ = _ + totalOf (p :: rest)
        rw [totalOf_cons]
        ring

/-! ## Claim theorems -/

/-- C10: the adaptive draw is atomic on failure: whenever
`FairlyRandomTable::random` returns the exhaustion error, the returned
state (base, working map, and both totals) is exactly the pre-call state —
no working weight is zeroed and no redistribution happens. -/
theorem failed_draw_state_unchanged (t : FairlyRandomTable T) (u : ℚ) (e : String)
    (h : (t.random u).1 = Except.error e) : (t.random u).2 = t := by
  cases hsel : selectLoop t.table (u * t.total) with
  | none => simp [FairlyRandomTable.random, hsel]
  | some p => simp [FairlyRandomTable.random, hsel] at h

/-- Witness for C10: the empty adaptive table errors on a draw and the
post-draw state is the pre-draw state. -/
theorem failed_draw_state_unchanged_witness :
    ((FairlyRandomTable.new (T := ℕ) (fun _ => 0)).random 0).2
      = FairlyRandomTable.new (fun _ => 0) :=
  failed_draw_state_unchanged (FairlyRandomTable.new (fun _ => 0)) 0 exhaustMsg rfl

/-- C6: history-free draws mutate no table state. `RandomTable::random`
leaves the entries and the total unchanged and only advances the injected
generator; and any sequence of `FairlyRandomTable::pure_random` calls (an
`&self` method, embedded as returning its receiver unchanged) leaves the
table state — hence `count`, `keys`, and the behaviour of a subsequent
adaptive draw on the same ambient variate — unchanged. -/
theorem draw_frame_effects (t : RandomTable T) (f : FairlyRandomTable T)
    (us : List ℚ) (u : ℚ) :
    (t.random.2.table = t.table ∧ t.random.2.total = t.total ∧
      t.random.2.rng = fun n => t.rng (n + 1)) ∧
    (us.foldl (fun s v => (s.pure_randomM v).2) f = f ∧
      (us.foldl (fun s v => (s.pure_randomM v).2) f).count = f.count ∧
      (us.foldl (fun s v => (s.pure_randomM v).2) f).keys = f.keys ∧
      (us.foldl (fun s v => (s.pure_randomM v).2) f).random u = f.random u) := by
  have hfold : ∀ (g : FairlyRandomTable T),
      us.foldl (fun s v => (s.pure_randomM v).2) g = g := by
    induction us with
    | nil => intro g; rfl
    | cons v rest ih =>
        intro g
        rw [List.foldl_cons]
        exact ih g
  exact ⟨⟨rfl, rfl, rfl⟩, hfold f, by rw [hfold f], by rw [hfold f], by rw [hfold f]⟩

/-- C8: for every reachable `FairlyRandomTable` (built by `new` or
`from_map` and any sequence of `push`, adaptive `random` and `pure_random`
calls), the key set of the working map equals the key set of the base
map. -/
theorem working_base_key_invariant (t : FairlyRandomTable T) (h : ReachF t) :
    keysOf t.table = keysOf t.base.table :=
  reachF_keys_eq h

/-- Witness for C8, on a table built by two pushes and one adaptive draw. -/
theorem working_base_key_invariant_witness :
    keysOf (((((FairlyRandomTable.new (T := ℕ) (fun _ => 0)).push 0 1).push 1 2).random
        0).2).table
      = keysOf (((((FairlyRandomTable.new (T := ℕ) (fun _ => 0)).push 0 1).push 1 2).random
        0).2).base.table :=
  working_base_key_invariant _
    (ReachF.random _ 0 (ReachF.push _ 1 2 (ReachF.push _ 0 1 (ReachF.new _))))

/-- C3 counterexample: the claim says the adaptive draw takes its variate
from the generator injected at construction, so that identical table
states with identical injected streams yield identical results. The code
calls the ambient `rand::random::<f64>()` instead: here one table state
(with its injected stream fixed to the constant-`0` stream) returns two
different identifiers for two different ambient variates. -/
theorem adaptive_draw_injected_rng_counterexample :
    ((((FairlyRandomTable.new (T := ℕ) (fun _ => 0)).push 0 1).push 1 1).random 0).1
        = Except.ok 0 ∧
    ((((FairlyRandomTable.new (T := ℕ) (fun _ => 0)).push 0 1).push 1 1).random (1/2)).1
        = Except.ok 1 ∧
    ((((FairlyRandomTable.new (T := ℕ) (fun _ => 0)).push 0 1).push 1 1).random 0).1
        ≠ ((((FairlyRandomTable.new (T := ℕ) (fun _ => 0)).push 0 1).push 1 1).random
        (1/2)).1 := by
  refine ⟨?_, ?_, ?_⟩ <;>
    norm_num [FairlyRandomTable.random, FairlyRandomTable.push, FairlyRandomTable.new,
      RandomTable.push, RandomTable.new, insertKV, keysOf, selectLoop,
      FairlyRandomTable.redistribute_weights, redistList, getVal, zeroAt]

/-- C3 amended: the adaptive draw obtains its variate from the ambient
process-wide generator (exactly as `pureDraw` does), not from the injected
per-instance generator: replacing the injected generator changes neither
the returned identifier nor any non-generator component of the post-draw
state, for every table, ambient variate and replacement stream. -/
theorem adaptive_draw_ambient_only (t : FairlyRandomTable T) (g : ℕ → ℚ) (u : ℚ) :
    ((t.withRng g).random u).1 = (t.random u).1 ∧
    ((t.withRng g).random u).2.table = (t.random u).2.table ∧
    ((t.withRng g).random u).2.total = (t.random u).2.total ∧
    ((t.withRng g).random u).2.base.table = (t.random u).2.base.table ∧
    ((t.withRng g).random u).2.base.total = (t.random u).2.base.total := by
  cases hsel : selectLoop t.table (u * t.total) with
  | none =>
      refine ⟨?_, ?_, ?_, ?_, ?_⟩ <;>
        simp [FairlyRandomTable.random, FairlyRandomTable.withRng, hsel]
  | some p =>
      refine ⟨?_, ?_, ?_, ?_, ?_⟩ <;>
        simp [FairlyRandomTable.random, FairlyRandomTable.withRng, hsel,
          FairlyRandomTable.redistribute_weights]

/-- C5 counterexample: with a negative stored total the scaled draw `r`
is negative, so the running remainder starts negative and a weight-`0`
entry IS selected: the table `{0 ↦ 0, 1 ↦ -1}` (total `-1`) with variate
`1/2` returns identifier `0`, whose stored weight is exactly `0`. -/
theorem zero_weight_selected_counterexample :
    ((((RandomTable.new (T := ℕ) (fun _ => 1/2)).push 0 0).push 1 (-1)).random).1
        = Except.ok 0 ∧
    getVal ((((RandomTable.new (T := ℕ) (fun _ => 1/2)).push 0 0).push 1 (-1)).table) 0
        = some 0 ∧
    (((RandomTable.new (T := ℕ) (fun _ => 1/2)).push 0 0).push 1 (-1)).total = -1 := by
  refine ⟨?_, ?_, ?_⟩ <;>
    norm_num [RandomTable.random, RandomTable.push, RandomTable.new, insertKV,
      keysOf, selectLoop, getVal]

/-- C5 amended: the no-zero-weight guarantee holds whenever the scaled
draw is nonnegative — in particular whenever the stored total is
nonnegative (`r = u * total ≥ 0` for `u ∈ [0,1)`): then the running
remainder stays nonnegative at every comparison, the selected entry
satisfies `weight > comp ≥ 0`, and a returned identifier always has
strictly positive stored weight. With a negative total the remainder can
start negative and a weight-`0` entry can be selected. -/
theorem no_zero_weight_selected_of_nonneg (t : RandomTable T) (x : T)
    (hnodup : (keysOf t.table).Nodup)
    (hu : 0 ≤ t.rng 0) (ht : 0 ≤ t.total)
    (h : (t.random).1 = Except.ok x) :
    ∃ w, getVal t.table x = some w ∧ 0 < w := by
  cases hsel : selectLoop t.table (t.rng 0 * t.total) with
  | none => simp [RandomTable.random, hsel] at h
  | some p =>
      simp only [RandomTable.random, hsel] at h
      rw [Except.ok.injEq] at h
      have hmem := selectLoop_mem hsel
      have hpos := selectLoop_pos (mul_nonneg hu ht) hsel
      refine ⟨p.2, ?_, hpos⟩
      rw [← h]
      exact getVal_of_mem_nodup _ _ hnodup hmem

/-- Witness for C5 amended: the table `{0 ↦ 1}` with variate `1/2`
returns an identifier of strictly positive stored weight. -/
theorem no_zero_weight_selected_of_nonneg_witness :
    ∃ w, getVal (((RandomTable.new (T := ℕ) (fun _ => 1/2)).push 0 1).table) 0 = some w
      ∧ 0 < w :=
  no_zero_weight_selected_of_nonneg ((RandomTable.new (T := ℕ) (fun _ => 1/2)).push 0 1) 0
    (by norm_num [RandomTable.push, RandomTable.new, insertKV, keysOf])
    (by norm_num [RandomTable.push, RandomTable.new])
    (by norm_num [RandomTable.push, RandomTable.new, insertKV, keysOf])
    (by norm_num [RandomTable.random, RandomTable.push, RandomTable.new, insertKV,
      keysOf, selectLoop])

/-- C1 counterexample: `push` of an existing identifier adds the new
weight to the stored total WITHOUT subtracting the replaced weight.
Pushing `0 ↦ 1` then `0 ↦ 2` leaves `count = 1` but the stored total is
`0 + 1 + 2 = 3`, not the claimed `0 + 1 + 2 - 1 = 2`, and the stored total
no longer equals the sum of entry weights (`2`). -/
theorem push_overwrite_total_counterexample :
    (((RandomTable.new (T := ℕ) (fun _ => 0)).push 0 1).push 0 2).count
        = ((RandomTable.new (T := ℕ) (fun _ => 0)).push 0 1).count ∧
    (((RandomTable.new (T := ℕ) (fun _ => 0)).push 0 1).push 0 2).total = 3 ∧
    ¬ (((RandomTable.new (T := ℕ) (fun _ => 0)).push 0 1).push 0 2).total
        = ((RandomTable.new (T := ℕ) (fun _ => 0)).push 0 1).total + 2 - 1 ∧
    totalOf ((((RandomTable.new (T := ℕ) (fun _ => 0)).push 0 1).push 0 2).table) = 2 ∧
    ¬ (((RandomTable.new (T := ℕ) (fun _ => 0)).push 0 1).push 0 2).total
        = totalOf ((((RandomTable.new (T := ℕ) (fun _ => 0)).push 0 1).push 0 2).table) := by
  refine ⟨?_, ?_, ?_, ?_, ?_⟩ <;>
    norm_num [RandomTable.push, RandomTable.new, RandomTable.count, insertKV,
      keysOf, totalOf]

/-- C1 amended: re-inserting an existing identifier `x` (resp. `y`)
leaves `count()` unchanged and stores the new weight, but adjusts the
stored total by `+w2` ONLY — the replaced weight is not subtracted, so
the contribution of `x` to the stored total is `w1 + w2` and the stored total
can drift above the sum of the current entry weights. This holds for both
table types (for `FairlyRandomTable` both the working and the base total
gain exactly `w2`). -/
theorem push_overwrite_total_amended (t : RandomTable T) (f : FairlyRandomTable T)
    (x y : T) (w1 w2 v1 v2 : ℚ)
    (hx : getVal t.table x = some w1) (hy : getVal f.table y = some v1) :
    (t.push x w2).count = t.count ∧
    (t.push x w2).total = t.total + w2 ∧
    getVal (t.push x w2).table x = some w2 ∧
    (f.push y v2).count = f.count ∧
    (f.push y v2).total = f.total + v2 ∧
    (f.push y v2).base.total = f.base.total + v2 ∧
    getVal (f.push y v2).table y = some v2 := by
  have hxm : x ∈ keysOf t.table := mem_keysOf_of_getVal hx
  have hym : y ∈ keysOf f.table := mem_keysOf_of_getVal hy
  refine ⟨?_, rfl, ?_, ?_, rfl, rfl, ?_⟩
  · show (insertKV t.table x w2).length = t.table.length
    rw [length_insertKV, if_pos hxm]
  · exact getVal_insertKV_self t.table x w2
  · show (insertKV f.table y v2).length = f.table.length
    rw [length_insertKV, if_pos hym]
  · exact getVal_insertKV_self f.table y v2

/-- Witness for C1 amended, on the singleton tables `{0 ↦ 1}`. -/
theorem push_overwrite_total_amended_witness :
    ((((RandomTable.new (T := ℕ) (fun _ => 0)).push 0 1).push 0 2).count
        = ((RandomTable.new (T := ℕ) (fun _ => 0)).push 0 1).count ∧
      (((RandomTable.new (T := ℕ) (fun _ => 0)).push 0 1).push 0 2).total
        = ((RandomTable.new (T := ℕ) (fun _ => 0)).push 0 1).total + 2 ∧
      getVal ((((RandomTable.new (T := ℕ) (fun _ => 0)).push 0 1).push 0 2).table) 0
        = some 2 ∧
      ((((FairlyRandomTable.new (T := ℕ) (fun _ => 0)).push 0 1).push 0 2).count
        = (((FairlyRandomTable.new (T := ℕ) (fun _ => 0)).push 0 1)).count) ∧
      (((FairlyRandomTable.new (T := ℕ) (fun _ => 0)).push 0 1).push 0 2).total
        = ((FairlyRandomTable.new (T := ℕ) (fun _ => 0)).push 0 1).total + 2 ∧
      (((FairlyRandomTable.new (T := ℕ) (fun _ => 0)).push 0 1).push 0 2).base.total
        = ((FairlyRandomTable.new (T := ℕ) (fun _ => 0)).push 0 1).base.total + 2 ∧
      getVal ((((FairlyRandomTable.new (T := ℕ) (fun _ => 0)).push 0 1).push 0 2).table) 0
        = some 2) :=
  push_overwrite_total_amended ((RandomTable.new (T := ℕ) (fun _ => 0)).push 0 1)
    ((FairlyRandomTable.new (T := ℕ) (fun _ => 0)).push 0 1) 0 0 1 2 1 2
    (by norm_num [RandomTable.push, RandomTable.new, insertKV, keysOf, getVal])
    (by norm_num [FairlyRandomTable.push, FairlyRandomTable.new, RandomTable.push,
      RandomTable.new, insertKV, keysOf, getVal])

/-- C4 counterexample: a `RandomTable` with stored total `3 > 0` (and even
a strictly positive sum of entry weights) that returns the exhaustion
error for the in-range variate `9/10`. The state `{0 ↦ 2}` with stored
total `3` is reached by the overwriting pushes `0 ↦ 1` then `0 ↦ 2`,
because `push` never subtracts the replaced weight. -/
theorem positive_total_draw_error_counterexample :
    ((((RandomTable.new (T := ℕ) (fun _ => 9/10)).push 0 1).push 0 2).random).1
        = Except.error exhaustMsg ∧
    0 < (((RandomTable.new (T := ℕ) (fun _ => 9/10)).push 0 1).push 0 2).total ∧
    0 < totalOf ((((RandomTable.new (T := ℕ) (fun _ => 9/10)).push 0 1).push 0 2).table) ∧
    0 ≤ (9:ℚ)/10 ∧ (9:ℚ)/10 < 1 := by
  refine ⟨?_, ?_, ?_, ?_, ?_⟩ <;>
    norm_num [RandomTable.random, RandomTable.push, RandomTable.new, insertKV,
      keysOf, selectLoop, totalOf]

/-- C4 amended: for every `RandomTable` whose stored total equals the sum
of its entry weights (the intended invariant, which overwriting pushes can
break) and is strictly positive, and every injected variate in `[0,1)`,
`random` returns `Ok` with some stored identifier; equivalently, under
that invariant an exhaustion error implies the total weight was `≤ 0`. -/
theorem draw_ok_of_positive_total (t : RandomTable T)
    (hinv : t.total = totalOf t.table) (hpos : 0 < t.total)
    (hu0 : 0 ≤ t.rng 0) (hu1 : t.rng 0 < 1) :
    ∃ x ∈ keysOf t.table, (t.random).1 = Except.ok x := by
  cases hsel : selectLoop t.table (t.rng 0 * t.total) with
  | some p =>
      refine ⟨p.1, ?_, ?_⟩
      · exact List.mem_map_of_mem Prod.fst (selectLoop_mem hsel)
      · simp [RandomTable.random, hsel]
  | none =>
      exfalso
      have hne : t.table ≠ [] := by
        intro he
        rw [hinv, he] at hpos
        simp [totalOf] at hpos
      have hle := selectLoop_none_le hne hsel
      rw [← hinv] at hle
      nlinarith

/-- Witness for C4 amended: the table `{0 ↦ 1, 1 ↦ 1}` with variate `1/2`
draws some stored identifier. -/
theorem draw_ok_of_positive_total_witness :
    ∃ x ∈ keysOf ((((RandomTable.new (T := ℕ) (fun _ => 1/2)).push 0 1).push 1 1).table),
      ((((RandomTable.new (T := ℕ) (fun _ => 1/2)).push 0 1).push 1 1).random).1
        = Except.ok x :=
  draw_ok_of_positive_total (((RandomTable.new (T := ℕ) (fun _ => 1/2)).push 0 1).push 1 1)
    (by norm_num [RandomTable.push, RandomTable.new, insertKV, keysOf, totalOf])
    (by norm_num [RandomTable.push, RandomTable.new])
    (by norm_num [RandomTable.push, RandomTable.new])
    (by norm_num [RandomTable.push, RandomTable.new])

/-- C7: for every identifier-to-weight mapping with unique keys, bulk
construction via `from_map` yields the same observable state as an empty
table followed by one `push` per entry: the same entries, the same stored
total (the sum of the weights of the mapping), and for `FairlyRandomTable` the
same base and working states. -/
theorem from_map_equiv_pushes (m : WMap T) (g : ℕ → ℚ) (hd : (keysOf m).Nodup) :
    (RandomTable.from_map m g).table
        = (m.foldl (fun s p => s.push p.1 p.2) (RandomTable.new (T := T) g)).table ∧
    (RandomTable.from_map m g).total
        = (m.foldl (fun s p => s.push p.1 p.2) (RandomTable.new (T := T) g)).total ∧
    (FairlyRandomTable.from_map m g).table
        = (m.foldl (fun s p => s.push p.1 p.2) (FairlyRandomTable.new (T := T) g)).table ∧
    (FairlyRandomTable.from_map m g).total
        = (m.foldl (fun s p => s.push p.1 p.2) (FairlyRandomTable.new (T := T) g)).total ∧
    (FairlyRandomTable.from_map m g).base.table
        = (m.foldl (fun s p => s.push p.1 p.2)
            (FairlyRandomTable.new (T := T) g)).base.table ∧
    (FairlyRandomTable.from_map m g).base.total
        = (m.foldl (fun s p => s.push p.1 p.2)
            (FairlyRandomTable.new (T := T) g)).base.total := by
  obtain ⟨h1, h2, _⟩ := foldl_push_spec m (RandomTable.new (T := T) g) hd
    (by intro k _ hk; cases hk)
  obtain ⟨h4, h5, h6, h7⟩ := foldl_pushF_spec m (FairlyRandomTable.new (T := T) g) hd
    (by intro k _ hk; cases hk) (by intro k _ hk; cases hk)
  refine ⟨?_, ?_, ?_, ?_, ?_, ?_⟩
  · rw [h1]; rfl
  · rw [h2]; show totalOf m = 0 + totalOf m; rw [zero_add]
  · rw [h4]; rfl
  · rw [h5]; show totalOf m = 0 + totalOf m; rw [zero_add]
  · rw [h6]; rfl
  · rw [h7]; show totalOf m = 0 + totalOf m; rw [zero_add]

/-- Witness for C7 on the two-entry mapping `{0 ↦ 1, 1 ↦ 2}`. -/
theorem from_map_equiv_pushes_witness :
    (RandomTable.from_map [((0:ℕ), (1:ℚ)), (1, 2)] (fun _ => 0)).table
        = ([((0:ℕ), (1:ℚ)), (1, 2)].foldl (fun s p => s.push p.1 p.2)
            (RandomTable.new (fun _ => 0))).table ∧
    (RandomTable.from_map [((0:ℕ), (1:ℚ)), (1, 2)] (fun _ => 0)).total
        = ([((0:ℕ), (1:ℚ)), (1, 2)].foldl (fun s p => s.push p.1 p.2)
            (RandomTable.new (fun _ => 0))).total ∧
    (FairlyRandomTable.from_map [((0:ℕ), (1:ℚ)), (1, 2)] (fun _ => 0)).table
        = ([((0:ℕ), (1:ℚ)), (1, 2)].foldl (fun s p => s.push p.1 p.2)
            (FairlyRandomTable.new (fun _ => 0))).table ∧
    (FairlyRandomTable.from_map [((0:ℕ), (1:ℚ)), (1, 2)] (fun _ => 0)).total
        = ([((0:ℕ), (1:ℚ)), (1, 2)].foldl (fun s p => s.push p.1 p.2)
            (FairlyRandomTable.new (fun _ => 0))).total ∧
    (FairlyRandomTable.from_map [((0:ℕ), (1:ℚ)), (1, 2)] (fun _ => 0)).base.table
        = ([((0:ℕ), (1:ℚ)), (1, 2)].foldl (fun s p => s.push p.1 p.2)
            (FairlyRandomTable.new (fun _ => 0))).base.table ∧
    (FairlyRandomTable.from_map [((0:ℕ), (1:ℚ)), (1, 2)] (fun _ => 0)).base.total
        = ([((0:ℕ), (1:ℚ)), (1, 2)].foldl (fun s p => s.push p.1 p.2)
            (FairlyRandomTable.new (fun _ => 0))).base.total :=
  from_map_equiv_pushes [((0:ℕ), (1:ℚ)), (1, 2)] (fun _ => 0) (by decide)

/-- C2 counterexample: a state reached by construction and pushes alone,
whose working key set equals the base key set and whose working weights
sum to `base.total`, on which a SUCCESSFUL adaptive draw does not conserve
the working sum: `{0 ↦ 1, 1 ↦ -1}` has `base.total = 0`, the draw with
variate `3/10` succeeds (scaled draw `0 < 1`), and redistribution divides
by the zero original total, so the working weights afterwards sum to `-1`,
not `base.total = 0`. -/
theorem draw_conservation_counterexample :
    keysOf ((((FairlyRandomTable.new (T := ℕ) (fun _ => 0)).push 0 1).push 1 (-1)).table)
        = keysOf ((((FairlyRandomTable.new (T := ℕ) (fun _ => 0)).push 0 1).push 1
            (-1)).base.table) ∧
    totalOf ((((FairlyRandomTable.new (T := ℕ) (fun _ => 0)).push 0 1).push 1 (-1)).table)
        = (((FairlyRandomTable.new (T := ℕ) (fun _ => 0)).push 0 1).push 1 (-1)).base.total ∧
    (((((FairlyRandomTable.new (T := ℕ) (fun _ => 0)).push 0 1).push 1 (-1)).random
        (3/10)).1) = Except.ok 0 ∧
    ¬ totalOf (((((FairlyRandomTable.new (T := ℕ) (fun _ => 0)).push 0 1).push 1
          (-1)).random (3/10)).2.table)
        = (((FairlyRandomTable.new (T := ℕ) (fun _ => 0)).push 0 1).push 1 (-1)).base.total := by
  refine ⟨?_, ?_, ?_, ?_⟩ <;>
    norm_num [FairlyRandomTable.random, FairlyRandomTable.push, FairlyRandomTable.new,
      RandomTable.push, RandomTable.new, insertKV, keysOf, selectLoop, zeroAt,
      FairlyRandomTable.redistribute_weights, redistList, getVal, totalOf]

/-- C2 amended: on every state reached by construction and pushes whose
working key set equals the base key set, whose working weights sum to
`base.total`, and whose `base.total` is NONZERO (excluded by the
counterexample: with `base.total = 0` a successful draw is still possible
but redistribution divides by zero), a successful adaptive draw conserves
the working total: afterwards both the sum of the working weights and the
stored working total equal `base.total`, in exact rational arithmetic. -/
theorem draw_conserves_working_total (t : FairlyRandomTable T) (u : ℚ) (x : T)
    (hp : PushReachF t)
    (hkeys : keysOf t.table = keysOf t.base.table)
    (hsum : totalOf t.table = t.base.total)
    (hbt : t.base.total ≠ 0)
    (hok : (t.random u).1 = Except.ok x) :
    totalOf ((t.random u).2.table) = t.base.total ∧
    (t.random u).2.total = t.base.total := by
  obtain ⟨htab, htot⟩ := pushReachF_eq hp
  have hnd := pushReachF_nodup hp
  cases hsel : selectLoop t.table (u * t.total) with
  | none => simp [FairlyRandomTable.random, hsel] at hok
  | some p =>
      have hpost : (t.random u).2.table
          = redistList t.base.table t.base.total p.2 (zeroAt t.table p.1) := by
        simp [FairlyRandomTable.random, hsel, FairlyRandomTable.redistribute_weights]
      have hposttot : (t.random u).2.total = t.total := by
        simp [FairlyRandomTable.random, hsel, FairlyRandomTable.redistribute_weights]
      have hmem := selectLoop_mem hsel
      have hpv := getVal_of_mem_nodup _ _ hnd hmem
      constructor
      · rw [hpost, totalOf_redistList, totalOf_zeroAt _ _ _ hnd hpv]
        have hkeq : keysOf (zeroAt t.table p.1) = keysOf t.base.table := by
          rw [keysOf_zeroAt, hkeys]
        have hndb : (keysOf t.base.table).Nodup := hkeys ▸ hnd
        rw [sum_getD_of_keysOf_eq _ _ hkeq hndb, ← htab, hsum, div_self hbt]
        ring
      · rw [hposttot, htot]

/-- Witness for C2 amended: the three-way table `{0 ↦ 1, 1 ↦ 1, 2 ↦ 1}`
(total `3`), after the successful draw with variate `0`, has working
weights summing to `3` again, and stored working total `3`. -/
theorem draw_conserves_working_total_witness :
    totalOf ((((((FairlyRandomTable.new (T := ℕ) (fun _ => 0)).push 0 1).push 1 1).push
        2 1).random 0).2.table)
      = ((((FairlyRandomTable.new (T := ℕ) (fun _ => 0)).push 0 1).push 1 1).push
        2 1).base.total ∧
    (((((FairlyRandomTable.new (T := ℕ) (fun _ => 0)).push 0 1).push 1 1).push
        2 1).random 0).2.total
      = ((((FairlyRandomTable.new (T := ℕ) (fun _ => 0)).push 0 1).push 1 1).push
        2 1).base.total :=
  draw_conserves_working_total _ 0 0
    (PushReachF.push _ 2 1 (PushReachF.push _ 1 1 (PushReachF.push _ 0 1
      (PushReachF.new _))))
    rfl
    (by norm_num [FairlyRandomTable.push, FairlyRandomTable.new, RandomTable.push,
      RandomTable.new, insertKV, keysOf, totalOf])
    (by norm_num [FairlyRandomTable.push, FairlyRandomTable.new, RandomTable.push,
      RandomTable.new])
    (by norm_num [FairlyRandomTable.random, FairlyRandomTable.push, FairlyRandomTable.new,
      RandomTable.push, RandomTable.new, insertKV, keysOf, selectLoop])

/-- C9: self-redistribution is included: on every reachable
`FairlyRandomTable` with nonzero `base.total` and agreeing key sets, when
the adaptive draw with variate `u ∈ [0,1)` selects identifier `x` whose
working weight was `w`, then immediately afterwards the working weight of
`x` equals `w * (base.weight(x) / base.total)` — it is zeroed and then receives
its own original-share portion in the same redistribution pass — and this
is strictly below the original weight when `w` equals the original weight
and `base.total` exceeds it. -/
theorem self_redistribution_share (t : FairlyRandomTable T) (u : ℚ) (x : T) (w b : ℚ)
    (hr : ReachF t)
    (hkeys : keysOf t.table = keysOf t.base.table)
    (hbt : t.base.total ≠ 0)
    (hu0 : 0 ≤ u) (hu1 : u < 1)
    (hw : getVal t.table x = some w)
    (hb : getVal t.base.table x = some b)
    (hok : (t.random u).1 = Except.ok x) :
    getVal ((t.random u).2.table) x = some (w * (b / t.base.total)) ∧
    (w = b → b < t.base.total → w * (b / t.base.total) < b) := by
  cases hsel : selectLoop t.table (u * t.total) with
  | none => simp [FairlyRandomTable.random, hsel] at hok
  | some p =>
      simp only [FairlyRandomTable.random, hsel] at hok
      rw [Except.ok.injEq] at hok
      subst hok
      have hnd := reachF_nodup hr
      have hmem := selectLoop_mem hsel
      have hpv := getVal_of_mem_nodup _ _ hnd hmem
      rw [hw] at hpv
      have hw2 : p.2 = w := (Option.some.inj hpv).symm
      have hpost : (t.random u).2.table
          = redistList t.base.table t.base.total p.2 (zeroAt t.table p.1) := by
        simp [FairlyRandomTable.random, hsel, FairlyRandomTable.redistribute_weights]
      constructor
      · rw [hpost, getVal_redistList, getVal_zeroAt_self, hw, hb, hw2]
        simp
      · intro hwb hlt
        have htt := reachF_total_eq hr
        have hbpos : 0 < b := by
          rcases selectLoop_pos_or_lt hsel with hp2 | hp2
          · rw [hw2, hwb] at hp2
            exact hp2
          · rw [htt, hw2, hwb] at hp2
            by_contra hble
            push_neg at hble
            have hbt0 : t.base.total < 0 := by nlinarith
            nlinarith
        have hbtpos : 0 < t.base.total := lt_trans hbpos hlt
        rw [hwb]
        have hdiv : b * (b / t.base.total) = b * b / t.base.total := by ring
        rw [hdiv, div_lt_iff₀ hbtpos]
        nlinarith

/-- Witness for C9: on `{0 ↦ 1, 1 ↦ 1, 2 ↦ 1}` (base total `3`), the draw
with variate `0` selects identifier `0` with working weight `1`; its
working weight immediately afterwards is `1 * (1 / 3)`, strictly less than
its original weight `1`. -/
theorem self_redistribution_share_witness :
    getVal ((((((FairlyRandomTable.new (T := ℕ) (fun _ => 0)).push 0 1).push 1 1).push
          2 1).random 0).2.table) 0
      = some (1 * (1 / ((((FairlyRandomTable.new (T := ℕ) (fun _ => 0)).push 0 1).push
          1 1).push 2 1).base.total)) ∧
    ((1:ℚ) = 1 →
      1 < ((((FairlyRandomTable.new (T := ℕ) (fun _ => 0)).push 0 1).push 1 1).push
          2 1).base.total →
      1 * (1 / ((((FairlyRandomTable.new (T := ℕ) (fun _ => 0)).push 0 1).push 1 1).push
          2 1).base.total) < 1) :=
  self_redistribution_share _ 0 0 1 1
    (ReachF.push _ 2 1 (ReachF.push _ 1 1 (ReachF.push _ 0 1 (ReachF.new _))))
    rfl
    (by norm_num [FairlyRandomTable.push, FairlyRandomTable.new, RandomTable.push,
      RandomTable.new])
    (by norm_num) (by norm_num)
    (by norm_num [FairlyRandomTable.push, FairlyRandomTable.new, RandomTable.push,
      RandomTable.new, insertKV, keysOf, getVal])
    (by norm_num [FairlyRandomTable.push, FairlyRandomTable.new, RandomTable.push,
      RandomTable.new, insertKV, keysOf, getVal])
    (by norm_num [FairlyRandomTable.random, FairlyRandomTable.push, FairlyRandomTable.new,
      RandomTable.push, RandomTable.new, insertKV, keysOf, selectLoop])

end Droprate
